import Mathlib

/-!
# Verification of a Brainfuck interpreter

Shallow embedding of the interpreter in `src/main.rs`:
a lexer (`lexical_analysis`), a bracket validator plus recursive-descent
AST builder (`syntax_analysis` / `create_ast`), and a tree-walking
executor (`run_program` / `execute_instruction`) over a 30000-cell byte
tape addressed through a wrapping `i32` pointer.

Modelling conventions:
* Machine integers are `Nat` / `Int` with explicit modular reduction.
  The crate ships no profile configuration, so integer overflow follows
  the documented wrap-around behaviour (release semantics): `u8` cell
  arithmetic reduces mod 256, and the `i32` pointer wraps at 2^31
  (`wrap32`).  Rust's truncating `%` on `i32` is `Int.tmod`.
* `stdin` / `stdout` are lists of byte values carried inside the
  `Interpreter` state; reading past end-of-input yields 0 exactly like
  the `read_input` function in the source.
* The executor's `while` loops need not terminate, so execution takes a
  fuel parameter counting loop iterations; `none` means fuel ran out.
-/

namespace BF

/-- The nine commands of `enum Command` in the source (`Default` is the
placeholder held by the synthetic root node). -/
inductive Command where
  | Default
  | IncDP
  | DecDP
  | IncByte
  | DecByte
  | OutByte
  | InByte
  | JumpForward
  | JumpBackward
deriving DecidableEq, Repr

/-- `enum NodeType` in the source. -/
inductive NodeType where
  | Program
  | Loop
  | Operator
deriving DecidableEq, Repr

/-- `struct Node { node_type, instruction, childrens }` in the source. -/
inductive Node where
  | mk (node_type : NodeType) (instruction : Command) (childrens : List Node)

/-- Projection for the `node_type` field. -/
def Node.node_type : Node → NodeType
  | .mk nt _ _ => nt

/-- Projection for the `instruction` field. -/
def Node.instruction : Node → Command
  | .mk _ ins _ => ins

/-- Projection for the `childrens` field. -/
def Node.childrens : Node → List Node
  | .mk _ _ cs => cs

/-- `struct Interpreter { memory: Vec<u8>, pointer: i32 }`, extended with
the process's input and output byte streams so that I/O is explicit. -/
structure Interpreter where
  memory : List Nat
  pointer : Int
  input : List Nat
  output : List Nat
deriving Repr

/-- `const MEMORY_SIZE: i32 = 30000`. -/
def MEMORY_SIZE : Int := 30000

/-- Two's-complement wrap-around of an `i32` value. -/
def wrap32 (x : Int) : Int := (x + 2 ^ 31) % 2 ^ 32 - 2 ^ 31

/-- `interpreter_init`: 30000 zeroed cells, pointer 0 (the byte streams
start as the given input and empty output). -/
def interpreter_init (input : List Nat) : Interpreter :=
  { memory := List.replicate (Int.toNat MEMORY_SIZE) 0
    pointer := 0
    input := input
    output := [] }

/-- `lexical_analysis`'s per-character action: the body of the
`for_each` closure, pushing one command for each of the 8 symbols and
dropping every other character. -/
def lex_step (result : List Command) (c : Char) : List Command :=
  match c with
  | '>' => result ++ [Command.IncDP]
  | '<' => result ++ [Command.DecDP]
  | '+' => result ++ [Command.IncByte]
  | '-' => result ++ [Command.DecByte]
  | '.' => result ++ [Command.OutByte]
  | ',' => result ++ [Command.InByte]
  | '[' => result ++ [Command.JumpForward]
  | ']' => result ++ [Command.JumpBackward]
  | _ => result

/-- `fn lexical_analysis(commands: String) -> Result<Vec<Command>, String>`:
folds `lex_step` over the characters, always returning `Ok`. -/
def lexical_analysis (commands : List Char) : Except String (List Command) :=
  Except.ok (commands.foldl lex_step [])

/-- `fn create_ast(node, commands, index)`: the mutable cursor of the
source is modelled by passing the remaining suffix of the command list
and returning the suffix left unconsumed (with its length bound, needed
for termination).  The caller's `*index += 1` after the recursive call
of the `JumpForward` arm is folded into the `JumpBackward` arm: the
returned suffix already starts after the consumed closing bracket. -/
def create_ast : (cs : List Command) →
    List Node × { rest : List Command // rest.length ≤ cs.length }
  | [] => ([], ⟨[], Nat.le_refl 0⟩)
  | Command.JumpForward :: rest =>
      match create_ast rest with
      | (body, ⟨rest1, h1⟩) =>
          match create_ast rest1 with
          | (sib, ⟨rest2, h2⟩) =>
              (Node.mk NodeType.Loop Command.JumpForward body :: sib,
                ⟨rest2, by simp only [List.length_cons]; omega⟩)
  | Command.JumpBackward :: rest => ([], ⟨rest, by simp⟩)
  | cmd :: rest =>
      match create_ast rest with
      | (sib, ⟨rest1, h1⟩) =>
          (Node.mk NodeType.Operator cmd [] :: sib,
            ⟨rest1, by simp only [List.length_cons]; omega⟩)
termination_by cs => cs.length
decreasing_by
  all_goals simp only [List.length_cons]; omega

/-- The bracket filter inside `syntax_analysis`: keeps only
`JumpForward` / `JumpBackward` commands. -/
def bracket_filter (cs : List Command) : List Command :=
  cs.filter fun cmd =>
    decide (cmd = Command.JumpForward) || decide (cmd = Command.JumpBackward)

/-- The `for cmd in filtered` loop of `syntax_analysis`: push on
`JumpForward`, pop otherwise; `none` models the early
`return Err("missing bracket")` on popping an empty stack, `some stack`
is the stack left when the loop finishes. -/
def stack_scan : List Command → List Command → Option (List Command)
  | stack, [] => some stack
  | stack, Command.JumpForward :: rest => stack_scan (Command.JumpForward :: stack) rest
  | stack, _ :: rest =>
      match stack with
      | [] => none
      | _ :: stack' => stack_scan stack' rest

/-- `fn syntax_analysis(commands) -> Result<Node, String>`: run the
stack validation over the filtered sequence, fail with
`"missing bracket"` on an empty pop or a non-empty final stack, and only
then build the tree rooted at the `Program` node. -/
def syntax_analysis (commands : List Command) : Except String Node :=
  match stack_scan [] (bracket_filter commands) with
  | none => Except.error "missing bracket"
  | some stack =>
      if stack.isEmpty = false then Except.error "missing bracket"
      else
        Except.ok (Node.mk NodeType.Program Command.Default
          (create_ast commands).1)

/-- `fn read_input() -> u8`: one byte from the input stream, 0 once the
stream is exhausted; also returns the rest of the stream. -/
def read_input : List Nat → Nat × List Nat
  | [] => (0, [])
  | b :: rest => (b, rest)

/-- `fn execute_instruction(interpreter, cmd, index)`:
pointer arithmetic wraps as `i32`, cell arithmetic wraps as `u8`. -/
def execute_instruction (interpreter : Interpreter) (cmd : Command)
    (index : Nat) : Interpreter :=
  match cmd with
  | Command.IncDP => { interpreter with pointer := wrap32 (interpreter.pointer + 1) }
  | Command.DecDP => { interpreter with pointer := wrap32 (interpreter.pointer - 1) }
  | Command.IncByte =>
      { interpreter with
        memory := interpreter.memory.set index
          ((interpreter.memory.getD index 0 + 1) % 256) }
  | Command.DecByte =>
      { interpreter with
        memory := interpreter.memory.set index
          ((interpreter.memory.getD index 0 + 255) % 256) }
  | Command.InByte =>
      { interpreter with
        memory := interpreter.memory.set index (read_input interpreter.input).1
        input := (read_input interpreter.input).2 }
  | Command.OutByte =>
      { interpreter with
        output := interpreter.output ++ [interpreter.memory.getD index 0] }
  | _ => interpreter

/-- The index computation of `run_program`:
`(((pointer % MEMORY_SIZE) + MEMORY_SIZE) % MEMORY_SIZE) as usize`,
with Rust's truncating `%` rendered as `Int.tmod`. -/
def tape_index (pointer : Int) : Nat :=
  (Int.tmod (Int.tmod pointer MEMORY_SIZE + MEMORY_SIZE) MEMORY_SIZE).toNat

mutual

/-- `fn run_program(interpreter, ast)`: run the children of `ast` in
order.  `fuel` bounds the number of loop-iteration checks taken. -/
def run_program (fuel : Nat) (st : Interpreter) (ast : Node) :
    Option Interpreter :=
  run_children fuel st ast.childrens
termination_by (fuel, sizeOf ast)
decreasing_by
  cases ast with
  | mk nt ins cs =>
      apply Prod.Lex.right
      simp [Node.childrens]

/-- The `for_each` over the children, dispatching on each child's
`node_type` field (rendered as a pattern on the node): the effective
index is recomputed from the pointer for each child that uses it; a
`Loop` child re-runs its body while the cell at the current index is
non-zero (each iteration consumes one unit of fuel; re-entering the
list with the same loop node at its head models the source's `while`,
whose condition re-reads the cell at the freshly recomputed index); an
`Operator` child dispatches to `execute_instruction`; `Program`
children fall into the source's no-op `_` arm. -/
def run_children (fuel : Nat) (st : Interpreter) :
    List Node → Option Interpreter
  | [] => some st
  | Node.mk NodeType.Loop ins cs :: rest =>
      let index := tape_index st.pointer
      if st.memory.getD index 0 ≠ 0 then
        match fuel with
        | 0 => none
        | fuel' + 1 =>
            match run_program fuel' st (Node.mk NodeType.Loop ins cs) with
            | none => none
            | some st1 =>
                run_children fuel' st1 (Node.mk NodeType.Loop ins cs :: rest)
      else run_children fuel st rest
  | Node.mk NodeType.Operator ins _ :: rest =>
      let index := tape_index st.pointer
      run_children fuel (execute_instruction st ins index) rest
  | Node.mk NodeType.Program _ _ :: rest => run_children fuel st rest
termination_by ns => (fuel, sizeOf ns)
decreasing_by
  all_goals
    first
      | exact Prod.Lex.left _ _ (Nat.lt_succ_self _)
      | (apply Prod.Lex.right; simp)

end

/-! ## Arithmetic helper lemmas -/

/-- Truncating remainder negates with its dividend. -/
theorem tmod_neg_dividend (a b : Int) : Int.tmod (-a) b = -Int.tmod a b := by
  rw [Int.tmod_def, Int.tmod_def, Int.neg_tdiv]
  ring

/-- The truncating remainder by a positive modulus lies strictly between
`-M` and `M`. -/
theorem tmod_bounds (p : Int) {M : Int} (hM : 0 < M) :
    -M < Int.tmod p M ∧ Int.tmod p M < M := by
  constructor
  · rcases le_or_lt 0 p with h | h
    · have h1 := Int.tmod_nonneg M h
      omega
    · have h1 : Int.tmod (-p) M < M := Int.tmod_lt_of_pos _ hM
      have h2 : Int.tmod (-(-p)) M = -Int.tmod (-p) M := tmod_neg_dividend (-p) M
      rw [Int.neg_neg] at h2
      omega
  · exact Int.tmod_lt_of_pos _ hM

/-- The double-remainder normalization of `run_program` agrees with
floor-modulo (Lean's `Int.emod` for a positive modulus). -/
theorem tape_index_eq_emod (p : Int) :
    (tape_index p : Int) = p % MEMORY_SIZE := by
  simp only [tape_index, MEMORY_SIZE]
  obtain ⟨x, hx, hb1, hb2⟩ :
      ∃ x, Int.tmod p 30000 = x ∧ -30000 < x ∧ x < 30000 :=
    ⟨_, rfl, (tmod_bounds p (by norm_num)).1, (tmod_bounds p (by norm_num)).2⟩
  obtain ⟨q, hq⟩ : ∃ q, x + 30000 * q = p :=
    ⟨_, by rw [← hx]; exact Int.tmod_add_tdiv p 30000⟩
  rw [hx]
  have houter : Int.tmod (x + 30000) 30000 = (x + 30000) % 30000 :=
    Int.tmod_eq_emod (by omega) (by norm_num)
  rw [houter, Int.toNat_of_nonneg (Int.emod_nonneg _ (by norm_num))]
  omega

/-- The effective tape index is always strictly below the tape length. -/
theorem tape_index_lt (p : Int) : tape_index p < 30000 := by
  have h := tape_index_eq_emod p
  simp only [MEMORY_SIZE] at h
  have h2 := Int.emod_lt_of_pos p (by norm_num : (0 : Int) < 30000)
  have h4 : ((tape_index p : Nat) : Int) < 30000 := h ▸ h2
  exact_mod_cast h4

/-! ## Claim theorems -/

/-- C2: for every value of the data pointer, including negative ones, the
effective tape index computed by the executor equals the floor-modulo of
the pointer by the tape length and lies in [0, 30000); in particular,
moving left once from pointer 0 (as one DecDP instruction does starting
from the freshly initialized interpreter) and reading accesses index
29999, the last cell. -/
theorem c2_effective_index_is_floor_mod :
    (∀ p : Int, (tape_index p : Int) = p % MEMORY_SIZE ∧
      tape_index p < 30000) ∧
    tape_index ((execute_instruction (interpreter_init [])
      Command.DecDP 0).pointer) = 29999 := by
  constructor
  · intro p
    exact ⟨tape_index_eq_emod p, tape_index_lt p⟩
  · rfl

/-- C1: cell arithmetic is unsigned modular arithmetic on one byte and is
never a fatal overflow: in every state, IncByte on a cell holding 255
stores 0 and DecByte on a cell holding 0 stores 255 (the result is an
ordinary state, never an error). -/
theorem c1_cell_arithmetic_wraps (st : Interpreter) (index : Nat)
    (h : index < st.memory.length) :
    (st.memory.getD index 0 = 255 →
      (execute_instruction st Command.IncByte index).memory.getD index 0 = 0) ∧
    (st.memory.getD index 0 = 0 →
      (execute_instruction st Command.DecByte index).memory.getD index 0 = 255) := by
  constructor <;> intro hc <;>
    (simp only [List.getD_eq_getElem?_getD, List.getElem?_eq_getElem h,
      Option.getD_some] at hc;
     simp [execute_instruction, hc, List.getD_eq_getElem?_getD,
      List.getElem?_set_self, h])

/-- Witness for C1 at concrete one-cell states holding 255 and 0. -/
theorem c1_cell_arithmetic_wraps_witness :
    (execute_instruction ⟨[255], 0, [], []⟩ Command.IncByte 0).memory.getD 0 0 = 0 ∧
    (execute_instruction ⟨[0], 0, [], []⟩ Command.DecByte 0).memory.getD 0 0 = 255 :=
  ⟨(c1_cell_arithmetic_wraps ⟨[255], 0, [], []⟩ 0 (by simp)).1 (by rfl),
   (c1_cell_arithmetic_wraps ⟨[0], 0, [], []⟩ 0 (by simp)).2 (by rfl)⟩

/-- C7: executing InByte always yields a state (input exhaustion is not
an error): with an empty input stream it stores 0 into the current cell,
otherwise it stores the first input byte there and consumes it. -/
theorem c7_input_byte_zero_on_eof (st : Interpreter) (index : Nat)
    (h : index < st.memory.length) :
    (st.input = [] →
      execute_instruction st Command.InByte index =
        { st with memory := st.memory.set index 0 } ∧
      (execute_instruction st Command.InByte index).memory.getD index 0 = 0) ∧
    (∀ b rest, st.input = b :: rest →
      execute_instruction st Command.InByte index =
        { st with memory := st.memory.set index b, input := rest } ∧
      (execute_instruction st Command.InByte index).memory.getD index 0 = b) := by
  constructor
  · intro he
    simp [execute_instruction, read_input, he, List.getD_eq_getElem?_getD,
      List.getElem?_set_self, h]
  · intro b rest he
    simp [execute_instruction, read_input, he, List.getD_eq_getElem?_getD,
      List.getElem?_set_self, h]

/-- Witness for C7: reading from empty input stores 0, reading the byte
65 stores 65. -/
theorem c7_input_byte_zero_on_eof_witness :
    (execute_instruction ⟨[7], 0, [], []⟩ Command.InByte 0).memory.getD 0 0 = 0 ∧
    (execute_instruction ⟨[7], 0, [65], []⟩ Command.InByte 0).memory.getD 0 0 = 65 :=
  ⟨((c7_input_byte_zero_on_eof ⟨[7], 0, [], []⟩ 0 (by simp)).1 (by rfl)).2,
   ((c7_input_byte_zero_on_eof ⟨[7], 0, [65], []⟩ 0 (by simp)).2 65 [] (by rfl)).2⟩

/-- The symbol table as the spec states it: each of the 8 symbols maps
to exactly one instruction, every other character to nothing.  Used to
state the filter-map property of the lexer. -/
def char_to_command (c : Char) : Option Command :=
  if c = '>' then some Command.IncDP
  else if c = '<' then some Command.DecDP
  else if c = '+' then some Command.IncByte
  else if c = '-' then some Command.DecByte
  else if c = '.' then some Command.OutByte
  else if c = ',' then some Command.InByte
  else if c = '[' then some Command.JumpForward
  else if c = ']' then some Command.JumpBackward
  else none

/-- One lexer step appends the image of the character under the symbol
table. -/
theorem lex_step_eq (acc : List Command) (c : Char) :
    lex_step acc c = acc ++ (char_to_command c).toList := by
  simp only [lex_step, char_to_command]
  split <;> simp_all

/-- The lexer's fold is an order-preserving filter-map. -/
theorem foldl_lex_step (cs : List Char) :
    ∀ acc : List Command,
      cs.foldl lex_step acc = acc ++ cs.filterMap char_to_command := by
  induction cs with
  | nil => intro acc; simp
  | cons c cs ih =>
      intro acc
      rw [List.foldl_cons, ih, lex_step_eq, List.filterMap_cons]
      cases char_to_command c <;> simp

/-- C6: the lexer never fails, its output is the order-preserving
filter-map of the input characters under the 8-symbol table (every other
character is dropped), and its length is at most the input length. -/
theorem c6_lexer_is_filter_map (commands : List Char) :
    lexical_analysis commands =
      Except.ok (commands.filterMap char_to_command) ∧
    (commands.filterMap char_to_command).length ≤ commands.length := by
  constructor
  · simp only [lexical_analysis, Except.ok.injEq]
    simpa using foldl_lex_step commands []
  · exact List.length_filterMap_le _ _

/-- C10: one Operator instruction mutates at most one state component:
IncDP / DecDP change only the pointer; IncByte / DecByte / InByte leave
the pointer and every other cell unchanged and only write the cell at
the given index; OutByte and the Default no-op leave pointer and tape
unchanged. -/
theorem c10_operator_frame (st : Interpreter) (index : Nat)
    (h : index < st.memory.length) :
    ((execute_instruction st Command.IncDP index).pointer =
        wrap32 (st.pointer + 1) ∧
      (execute_instruction st Command.IncDP index).memory = st.memory) ∧
    ((execute_instruction st Command.DecDP index).pointer =
        wrap32 (st.pointer - 1) ∧
      (execute_instruction st Command.DecDP index).memory = st.memory) ∧
    (∀ cmd, cmd = Command.IncByte ∨ cmd = Command.DecByte ∨
        cmd = Command.InByte →
      (execute_instruction st cmd index).pointer = st.pointer ∧
      (execute_instruction st cmd index).memory.length = st.memory.length ∧
      ∀ j, j ≠ index →
        (execute_instruction st cmd index).memory.getD j 0 =
          st.memory.getD j 0) ∧
    (execute_instruction st Command.IncByte index).memory.getD index 0 =
      (st.memory.getD index 0 + 1) % 256 ∧
    (execute_instruction st Command.DecByte index).memory.getD index 0 =
      (st.memory.getD index 0 + 255) % 256 ∧
    ((execute_instruction st Command.OutByte index).pointer = st.pointer ∧
      (execute_instruction st Command.OutByte index).memory = st.memory) ∧
    execute_instruction st Command.Default index = st := by
  refine ⟨⟨rfl, rfl⟩, ⟨rfl, rfl⟩, ?_, ?_, ?_, ⟨rfl, rfl⟩, rfl⟩
  · intro cmd hc
    have hgd : ∀ (v : Nat) (j : Nat), j ≠ index →
        (st.memory.set index v).getD j 0 = st.memory.getD j 0 := by
      intro v j hj
      simp [List.getD_eq_getElem?_getD, List.getElem?_set_ne (Ne.symm hj)]
    rcases hc with rfl | rfl | rfl <;>
      exact ⟨rfl, by simp [execute_instruction], fun j hj => hgd _ j hj⟩
  · simp [execute_instruction, List.getD_eq_getElem?_getD,
      List.getElem?_set_self, h]
  · simp [execute_instruction, List.getD_eq_getElem?_getD,
      List.getElem?_set_self, h]

/-- Witness for C10 on a concrete two-cell state. -/
theorem c10_operator_frame_witness :
    (execute_instruction ⟨[1, 2], 5, [9], []⟩ Command.IncByte 0).pointer = 5 ∧
    (execute_instruction ⟨[1, 2], 5, [9], []⟩
      Command.IncByte 0).memory.getD 1 0 = 2 :=
  ⟨((c10_operator_frame ⟨[1, 2], 5, [9], []⟩ 0 (by simp)).2.2.1
      Command.IncByte (Or.inl rfl)).1,
   ((c10_operator_frame ⟨[1, 2], 5, [9], []⟩ 0 (by simp)).2.2.1
      Command.IncByte (Or.inl rfl)).2.2 1 (by decide)⟩

/-! ## Bracket validation: correspondence with the spec's criterion -/

/-- The depth left by the stack validation, tracked numerically: the
stack of `stack_scan` only ever holds `JumpForward`, so its whole state
is its height.  `none` is the early "missing bracket" failure. -/
def scan_depth : Nat → List Command → Option Nat
  | d, [] => some d
  | d, Command.JumpForward :: rest => scan_depth (d + 1) rest
  | d, Command.JumpBackward :: rest =>
      match d with
      | 0 => none
      | d' + 1 => scan_depth d' rest
  | d, _ :: rest => scan_depth d rest

/-- `stack_scan` over the filtered sequence is, up to stack height,
`scan_depth` over the unfiltered sequence. -/
theorem stack_scan_eq_scan_depth (cs : List Command) :
    ∀ stack : List Command,
      Option.map List.length (stack_scan stack (bracket_filter cs)) =
        scan_depth stack.length cs := by
  induction cs with
  | nil => intro stack; simp [bracket_filter, stack_scan, scan_depth]
  | cons c r ih =>
      intro stack
      cases c with
      | JumpForward =>
          have hf : bracket_filter (Command.JumpForward :: r) =
              Command.JumpForward :: bracket_filter r := by
            simp [bracket_filter, List.filter]
          rw [hf]
          simpa [stack_scan, scan_depth] using ih (Command.JumpForward :: stack)
      | JumpBackward =>
          have hf : bracket_filter (Command.JumpBackward :: r) =
              Command.JumpBackward :: bracket_filter r := by
            simp [bracket_filter, List.filter]
          rw [hf]
          cases stack with
          | nil => simp [stack_scan, scan_depth]
          | cons x s => simpa [stack_scan, scan_depth] using ih s
      | Default =>
          have hf : bracket_filter (Command.Default :: r) = bracket_filter r := by
            simp [bracket_filter, List.filter]
          rw [hf]; simpa [scan_depth] using ih stack
      | IncDP =>
          have hf : bracket_filter (Command.IncDP :: r) = bracket_filter r := by
            simp [bracket_filter, List.filter]
          rw [hf]; simpa [scan_depth] using ih stack
      | DecDP =>
          have hf : bracket_filter (Command.DecDP :: r) = bracket_filter r := by
            simp [bracket_filter, List.filter]
          rw [hf]; simpa [scan_depth] using ih stack
      | IncByte =>
          have hf : bracket_filter (Command.IncByte :: r) = bracket_filter r := by
            simp [bracket_filter, List.filter]
          rw [hf]; simpa [scan_depth] using ih stack
      | DecByte =>
          have hf : bracket_filter (Command.DecByte :: r) = bracket_filter r := by
            simp [bracket_filter, List.filter]
          rw [hf]; simpa [scan_depth] using ih stack
      | OutByte =>
          have hf : bracket_filter (Command.OutByte :: r) = bracket_filter r := by
            simp [bracket_filter, List.filter]
          rw [hf]; simpa [scan_depth] using ih stack
      | InByte =>
          have hf : bracket_filter (Command.InByte :: r) = bracket_filter r := by
            simp [bracket_filter, List.filter]
          rw [hf]; simpa [scan_depth] using ih stack

/-- Splitting a non-empty list at a prefix. -/
theorem exists_prefix_cons (c : Command) (r : List Command)
    (P : List Command → Prop) :
    (∃ p s, c :: r = p ++ s ∧ P p) ↔
      P [] ∨ ∃ p s, r = p ++ s ∧ P (c :: p) := by
  constructor
  · rintro ⟨p, s, he, hp⟩
    cases p with
    | nil => exact Or.inl hp
    | cons x p =>
        rw [List.cons_append, List.cons.injEq] at he
        obtain ⟨rfl, he'⟩ := he
        exact Or.inr ⟨p, s, he', hp⟩
  · rintro (h | ⟨p, s, rfl, hp⟩)
    · exact ⟨[], c :: r, rfl, h⟩
    · exact ⟨c :: p, s, rfl, hp⟩

/-- `scan_depth` fails exactly when some prefix closes more loops than
were opened before it (relative to the starting depth `d`). -/
theorem scan_depth_eq_none_iff (cs : List Command) :
    ∀ d : Nat, scan_depth d cs = none ↔
      ∃ p s, cs = p ++ s ∧
        d + p.count Command.JumpForward < p.count Command.JumpBackward := by
  induction cs with
  | nil =>
      intro d
      constructor
      · intro h
        rw [show scan_depth d [] = some d from rfl] at h
        cases h
      · rintro ⟨p, s, he, hp⟩
        rw [eq_comm, List.append_eq_nil] at he
        obtain ⟨rfl, rfl⟩ := he
        simp at hp
  | cons c r ih =>
      intro d
      cases c
      case JumpForward =>
          rw [show scan_depth d (Command.JumpForward :: r) =
              scan_depth (d + 1) r from rfl, ih (d + 1), exists_prefix_cons]
          constructor
          · rintro ⟨p, s, rfl, hp⟩
            refine Or.inr ⟨p, s, rfl, ?_⟩
            simp only [List.count_cons]
            simp
            omega
          · rintro (h | ⟨p, s, rfl, hp⟩)
            · simp at h
            · refine ⟨p, s, rfl, ?_⟩
              simp [List.count_cons] at hp
              omega
      case JumpBackward =>
          cases d with
          | zero =>
              rw [show scan_depth 0 (Command.JumpBackward :: r) = none from rfl,
                exists_prefix_cons]
              constructor
              · intro _
                refine Or.inr ⟨[], r, rfl, ?_⟩
                simp
              · intro _
                rfl
          | succ d' =>
              rw [show scan_depth (d' + 1) (Command.JumpBackward :: r) =
                  scan_depth d' r from rfl, ih d', exists_prefix_cons]
              constructor
              · rintro ⟨p, s, rfl, hp⟩
                refine Or.inr ⟨p, s, rfl, ?_⟩
                simp [List.count_cons]
                omega
              · rintro (h | ⟨p, s, rfl, hp⟩)
                · simp at h
                · refine ⟨p, s, rfl, ?_⟩
                  simp [List.count_cons] at hp
                  omega
      all_goals
        simp only [scan_depth]
        rw [ih d, exists_prefix_cons]
        constructor
        · rintro ⟨p, s, rfl, hp⟩
          refine Or.inr ⟨p, s, rfl, ?_⟩
          simp [List.count_cons]
          omega
        · rintro (h | ⟨p, s, rfl, hp⟩)
          · simp at h
          · refine ⟨p, s, rfl, ?_⟩
            simp [List.count_cons] at hp
            omega

/-- A successful `scan_depth` run leaves exactly the depth difference
between opened and closed loops. -/
theorem scan_depth_eq_some (cs : List Command) :
    ∀ d k : Nat, scan_depth d cs = some k →
      k + cs.count Command.JumpBackward =
        d + cs.count Command.JumpForward := by
  induction cs with
  | nil =>
      intro d k h
      rw [show scan_depth d [] = some d from rfl] at h
      cases h
      simp
  | cons c r ih =>
      intro d k h
      cases c
      case JumpForward =>
          rw [show scan_depth d (Command.JumpForward :: r) =
              scan_depth (d + 1) r from rfl] at h
          have hk := ih (d + 1) k h
          simp [List.count_cons]
          omega
      case JumpBackward =>
          cases d with
          | zero =>
              rw [show scan_depth 0 (Command.JumpBackward :: r) = none from rfl] at h
              cases h
          | succ d' =>
              rw [show scan_depth (d' + 1) (Command.JumpBackward :: r) =
                  scan_depth d' r from rfl] at h
              have hk := ih d' k h
              simp [List.count_cons]
              omega
      all_goals
        simp only [scan_depth] at h
        have hk := ih d k h
        simp [List.count_cons]
        omega

/-- Spec-side failure criterion for C3: some `LoopEnd` is reached with
no unmatched `LoopStart` before it (a prefix closes more loops than it
opens), or some `LoopStart` is never closed (strictly more opens than
closes overall). -/
def missing_bracket_spec (cs : List Command) : Prop :=
  (∃ p s, cs = p ++ s ∧
    p.count Command.JumpForward < p.count Command.JumpBackward) ∨
  cs.count Command.JumpBackward < cs.count Command.JumpForward

/-- C3: parsing fails, with the error "missing bracket", exactly when
the bracket structure is invalid in the spec's sense; on failure no tree
is returned, and a returned tree certifies validity. -/
theorem c3_missing_bracket_iff (commands : List Command) :
    (syntax_analysis commands = Except.error "missing bracket" ↔
      missing_bracket_spec commands) ∧
    (∀ tree, syntax_analysis commands = Except.ok tree →
      ¬missing_bracket_spec commands) := by
  have hmap := stack_scan_eq_scan_depth commands []
  simp only [List.length_nil] at hmap
  have main : syntax_analysis commands = Except.error "missing bracket" ↔
      missing_bracket_spec commands := by
    cases hscan : stack_scan [] (bracket_filter commands) with
    | none =>
        rw [hscan] at hmap
        simp only [Option.map_none'] at hmap
        have hbad := (scan_depth_eq_none_iff commands 0).1 hmap.symm
        simp only [Nat.zero_add] at hbad
        constructor
        · intro _
          exact Or.inl hbad
        · intro _
          simp [syntax_analysis, hscan]
    | some stack =>
        rw [hscan] at hmap
        simp only [Option.map_some'] at hmap
        have hsome := scan_depth_eq_some commands 0 stack.length hmap.symm
        simp only [Nat.zero_add] at hsome
        cases stack with
        | nil =>
            have hok : syntax_analysis commands =
                Except.ok (Node.mk NodeType.Program Command.Default
                  (create_ast commands).1) := by
              simp [syntax_analysis, hscan]
            rw [hok]
            simp only [List.length_nil, Nat.zero_add] at hsome
            constructor
            · intro h; cases h
            · intro h
              rcases h with ⟨p, s, rfl, hp⟩ | hlt
              · have : scan_depth 0 (p ++ s) = none := by
                  rw [scan_depth_eq_none_iff]
                  exact ⟨p, s, rfl, by omega⟩
                rw [this] at hmap
                cases hmap
              · omega
        | cons x s =>
            have herr : syntax_analysis commands =
                Except.error "missing bracket" := by
              simp [syntax_analysis, hscan]
            rw [herr]
            simp only [List.length_cons] at hsome
            constructor
            · intro _
              exact Or.inr (by omega)
            · intro _; rfl
  refine ⟨main, ?_⟩
  intro tree hok hspec
  rw [main.2 hspec] at hok
  cases hok

/-- Witness for C3: the empty program parses, so it is not
bracket-invalid. -/
theorem c3_missing_bracket_iff_witness :
    ¬missing_bracket_spec [] :=
  (c3_missing_bracket_iff []).2
    (Node.mk NodeType.Program Command.Default (create_ast []).1) rfl

/-! ## Tree construction on balanced input -/

mutual

/-- Number of Operator nodes in a tree. -/
def op_count : Node → Nat
  | .mk nt _ cs =>
      (match nt with
       | NodeType.Operator => 1
       | _ => 0) + op_count_list cs

/-- Number of Operator nodes in a forest. -/
def op_count_list : List Node → Nat
  | [] => 0
  | n :: rest => op_count n + op_count_list rest

end

mutual

/-- Every Operator node of the tree is a leaf holding one non-bracket
instruction. -/
def operators_ok : Node → Prop
  | .mk nt ins cs =>
      (nt = NodeType.Operator →
        ins ≠ Command.JumpForward ∧ ins ≠ Command.JumpBackward ∧ cs = []) ∧
      operators_ok_list cs

/-- `operators_ok` for every tree of a forest. -/
def operators_ok_list : List Node → Prop
  | [] => True
  | n :: rest => operators_ok n ∧ operators_ok_list rest

end

/-- Number of non-bracket tokens in a command sequence. -/
def non_bracket_count : List Command → Nat
  | [] => 0
  | Command.JumpForward :: r => non_bracket_count r
  | Command.JumpBackward :: r => non_bracket_count r
  | _ :: r => non_bracket_count r + 1

/-- A non-bracket command adds one to the non-bracket token count. -/
theorem non_bracket_count_cons_other (c : Command)
    (h1 : c ≠ Command.JumpForward) (h2 : c ≠ Command.JumpBackward)
    (r : List Command) :
    non_bracket_count (c :: r) = non_bracket_count r + 1 := by
  cases c
  case JumpForward => exact absurd rfl h1
  case JumpBackward => exact absurd rfl h2
  all_goals rfl

/-- Opening brackets do not change the non-bracket token count. -/
theorem non_bracket_count_cons_jf (r : List Command) :
    non_bracket_count (Command.JumpForward :: r) = non_bracket_count r := rfl

/-- Closing brackets do not change the non-bracket token count. -/
theorem non_bracket_count_cons_jb (r : List Command) :
    non_bracket_count (Command.JumpBackward :: r) = non_bracket_count r := rfl

/-- The non-bracket token count is additive over append. -/
theorem non_bracket_count_append (a b : List Command) :
    non_bracket_count (a ++ b) = non_bracket_count a + non_bracket_count b := by
  induction a with
  | nil => simp [non_bracket_count]
  | cons c r ih =>
      rw [List.cons_append]
      by_cases h1 : c = Command.JumpForward
      · subst h1
        rw [non_bracket_count_cons_jf, non_bracket_count_cons_jf, ih]
      · by_cases h2 : c = Command.JumpBackward
        · subst h2
          rw [non_bracket_count_cons_jb, non_bracket_count_cons_jb, ih]
        · rw [non_bracket_count_cons_other c h1 h2,
            non_bracket_count_cons_other c h1 h2, ih]
          omega

/-- Correctly nested command sequences (the Dyck grammar over the
bracket commands): spec-side notion of "balanced and correctly nested"
for C4. -/
inductive Balanced : List Command → Prop where
  | nil : Balanced []
  | op (c : Command) (cs : List Command) : c ≠ Command.JumpForward →
      c ≠ Command.JumpBackward → Balanced cs → Balanced (c :: cs)
  | bracket (b cs : List Command) : Balanced b → Balanced cs →
      Balanced (Command.JumpForward :: b ++ Command.JumpBackward :: cs)

/-- `create_ast` on the empty sequence builds nothing. -/
theorem create_ast_nil_fst : (create_ast []).1 = [] := by
  simp [create_ast]

/-- `create_ast` at a closing bracket: build nothing, consume it. -/
theorem create_ast_cons_jb (r : List Command) :
    (create_ast (Command.JumpBackward :: r)).1 = [] ∧
    (create_ast (Command.JumpBackward :: r)).2.val = r := by
  simp [create_ast]

/-- `create_ast` at a non-bracket command: wrap it in an Operator leaf
and continue. -/
theorem create_ast_cons_op (c : Command) (h1 : c ≠ Command.JumpForward)
    (h2 : c ≠ Command.JumpBackward) (r : List Command) :
    (create_ast (c :: r)).1 =
      Node.mk NodeType.Operator c [] :: (create_ast r).1 ∧
    (create_ast (c :: r)).2.val = (create_ast r).2.val := by
  cases c
  case JumpForward => exact absurd rfl h1
  case JumpBackward => exact absurd rfl h2
  all_goals
    rcases hr : create_ast r with ⟨sib, rest1, hlen⟩
    simp [create_ast, hr]

/-- `create_ast` at an opening bracket, stated over the destructured
results of the two recursive calls. -/
theorem create_ast_cons_jf_aux (r : List Command) (body : List Node)
    (rest1 : List Command) (h1 : rest1.length ≤ r.length)
    (hr : create_ast r = (body, ⟨rest1, h1⟩)) (sib : List Node)
    (rest2 : List Command) (h2 : rest2.length ≤ rest1.length)
    (hr2 : create_ast rest1 = (sib, ⟨rest2, h2⟩)) :
    (create_ast (Command.JumpForward :: r)).1 =
      Node.mk NodeType.Loop Command.JumpForward body :: sib ∧
    (create_ast (Command.JumpForward :: r)).2.val = rest2 := by
  constructor
  · simp only [create_ast]
    rw [hr]
    simp only [Prod.fst, Prod.snd]
    rw [hr2]
  · simp only [create_ast]
    rw [hr]
    simp only [Prod.fst, Prod.snd]
    rw [hr2]

/-- `create_ast` at an opening bracket: build the Loop node from the
recursive call on the rest, then continue after the consumed body. -/
theorem create_ast_cons_jf (r : List Command) :
    (create_ast (Command.JumpForward :: r)).1 =
      Node.mk NodeType.Loop Command.JumpForward (create_ast r).1 ::
        (create_ast (create_ast r).2.val).1 ∧
    (create_ast (Command.JumpForward :: r)).2.val =
      (create_ast (create_ast r).2.val).2.val :=
  create_ast_cons_jf_aux r (create_ast r).1 (create_ast r).2.val
    (create_ast r).2.property rfl (create_ast (create_ast r).2.val).1
    (create_ast (create_ast r).2.val).2.val
    (create_ast (create_ast r).2.val).2.property rfl

/-- On a balanced block, `create_ast` consumes exactly the block,
producing a forest whose Operator-leaf count is the block's non-bracket
token count and whose Operator leaves are all well-formed; parsing then
continues with whatever follows the block. -/
theorem create_ast_of_balanced {b : List Command} (hb : Balanced b) :
    ∃ ns, op_count_list ns = non_bracket_count b ∧ operators_ok_list ns ∧
      ∀ rest, (create_ast (b ++ rest)).1 = ns ++ (create_ast rest).1 ∧
        (create_ast (b ++ rest)).2.val = (create_ast rest).2.val := by
  induction hb with
  | nil =>
      refine ⟨[], rfl, ?_, fun rest => by simp⟩
      simp only [operators_ok_list]
  | op c cs h1 h2 hcs ih =>
      obtain ⟨ns, hcount, hok, hrest⟩ := ih
      refine ⟨Node.mk NodeType.Operator c [] :: ns, ?_, ?_, ?_⟩
      · simp only [op_count_list, op_count]
        rw [non_bracket_count_cons_other c h1 h2, hcount]
        omega
      · simp only [operators_ok_list, operators_ok]
        simp_all
      · intro rest
        rw [List.cons_append]
        have hco := create_ast_cons_op c h1 h2 (cs ++ rest)
        constructor
        · rw [hco.1, (hrest rest).1]
          simp
        · rw [hco.2, (hrest rest).2]
  | bracket b cs hbB hbC ihB ihC =>
      obtain ⟨nsB, hcB, hokB, hrB⟩ := ihB
      obtain ⟨nsC, hcC, hokC, hrC⟩ := ihC
      refine ⟨Node.mk NodeType.Loop Command.JumpForward nsB :: nsC, ?_, ?_, ?_⟩
      · simp only [op_count_list, op_count]
        rw [show (Command.JumpForward :: b ++ Command.JumpBackward :: cs) =
            Command.JumpForward :: (b ++ (Command.JumpBackward :: cs))
            from rfl,
          show non_bracket_count (Command.JumpForward ::
              (b ++ (Command.JumpBackward :: cs))) =
            non_bracket_count (b ++ (Command.JumpBackward :: cs)) from rfl,
          non_bracket_count_append,
          show non_bracket_count (Command.JumpBackward :: cs) =
            non_bracket_count cs from rfl, hcB, hcC]
        omega
      · simp only [operators_ok_list, operators_ok]
        simp_all
      · intro rest
        have hsplit : (Command.JumpForward :: b ++ Command.JumpBackward :: cs)
            ++ rest =
            Command.JumpForward ::
              (b ++ (Command.JumpBackward :: (cs ++ rest))) := by
          simp
        rw [hsplit]
        have hjf := create_ast_cons_jf (b ++ (Command.JumpBackward :: (cs ++ rest)))
        have hinner := hrB (Command.JumpBackward :: (cs ++ rest))
        have hjb := create_ast_cons_jb (cs ++ rest)
        have hcont := hrC rest
        constructor
        · rw [hjf.1, hinner.1, hjb.1, hinner.2, hjb.2, hcont.1]
          simp
        · rw [hjf.2, hinner.2, hjb.2, hcont.2]

/-- Scanning a balanced block leaves the depth unchanged. -/
theorem scan_depth_cons_other (c : Command) (h1 : c ≠ Command.JumpForward)
    (h2 : c ≠ Command.JumpBackward) (d : Nat) (r : List Command) :
    scan_depth d (c :: r) = scan_depth d r := by
  cases c
  case JumpForward => exact absurd rfl h1
  case JumpBackward => exact absurd rfl h2
  all_goals rfl

/-- The depth scan passes over a balanced block without changing the
depth. -/
theorem scan_depth_append_balanced {b : List Command} (hb : Balanced b) :
    ∀ (d : Nat) (rest : List Command),
      scan_depth d (b ++ rest) = scan_depth d rest := by
  induction hb with
  | nil => intro d rest; rfl
  | op c cs h1 h2 hcs ih =>
      intro d rest
      rw [List.cons_append, scan_depth_cons_other c h1 h2, ih]
  | bracket b cs hbB hbC ihB ihC =>
      intro d rest
      have hsplit : (Command.JumpForward :: b ++ Command.JumpBackward :: cs)
          ++ rest =
          Command.JumpForward ::
            (b ++ (Command.JumpBackward :: (cs ++ rest))) := by
        simp
      rw [hsplit,
        show scan_depth d (Command.JumpForward ::
            (b ++ (Command.JumpBackward :: (cs ++ rest)))) =
          scan_depth (d + 1) (b ++ (Command.JumpBackward :: (cs ++ rest)))
          from rfl,
        ihB,
        show scan_depth (d + 1) (Command.JumpBackward :: (cs ++ rest)) =
          scan_depth d (cs ++ rest) from rfl,
        ihC]

/-- C4: on a balanced, correctly nested token sequence, parsing succeeds
with the ProgramRoot tree built by `create_ast`; its Operator-node count
equals the non-bracket token count, and every Operator node is a leaf
holding one non-bracket instruction (brackets never appear as Operator
payloads). -/
theorem c4_balanced_parse (commands : List Command) (hb : Balanced commands) :
    syntax_analysis commands =
      Except.ok (Node.mk NodeType.Program Command.Default
        (create_ast commands).1) ∧
    op_count_list (create_ast commands).1 = non_bracket_count commands ∧
    operators_ok_list (create_ast commands).1 := by
  have hscan0 : scan_depth 0 commands = some 0 := by
    have h := scan_depth_append_balanced hb 0 []
    rw [List.append_nil] at h
    exact h
  have hmap := stack_scan_eq_scan_depth commands []
  simp only [List.length_nil] at hmap
  rw [hscan0] at hmap
  obtain ⟨stack, hstack, hlen⟩ :
      ∃ s, stack_scan [] (bracket_filter commands) = some s ∧
        s.length = 0 := by
    cases hs : stack_scan [] (bracket_filter commands) with
    | none => rw [hs] at hmap; cases hmap
    | some s =>
        rw [hs] at hmap
        simp only [Option.map_some', Option.some.injEq] at hmap
        exact ⟨s, rfl, hmap⟩
  have hstack_nil : stack = [] := List.length_eq_zero.mp hlen
  subst hstack_nil
  obtain ⟨ns, hcount, hok, hrest⟩ := create_ast_of_balanced hb
  have h1 : (create_ast commands).1 = ns := by
    have h := (hrest []).1
    rw [List.append_nil, create_ast_nil_fst, List.append_nil] at h
    exact h
  refine ⟨?_, ?_, ?_⟩
  · simp [syntax_analysis, hstack]
  · rw [h1]; exact hcount
  · rw [h1]; exact hok

/-- Witness for C4 on the balanced program "[+]". -/
theorem c4_balanced_parse_witness :
    op_count_list (create_ast [Command.JumpForward, Command.IncByte,
      Command.JumpBackward]).1 =
      non_bracket_count [Command.JumpForward, Command.IncByte,
        Command.JumpBackward] ∧
    operators_ok_list (create_ast [Command.JumpForward, Command.IncByte,
      Command.JumpBackward]).1 :=
  (c4_balanced_parse _
    (Balanced.bracket [Command.IncByte] []
      (Balanced.op Command.IncByte [] (by decide) (by decide) Balanced.nil)
      Balanced.nil)).2

/-! ## Executor equations -/

/-- An exhausted child list leaves the state unchanged. -/
theorem run_children_nil (fuel : Nat) (st : Interpreter) :
    run_children fuel st [] = some st := by
  rw [run_children]

/-- An Operator child dispatches to `execute_instruction` at the current
effective index and continues. -/
theorem run_children_cons_operator (fuel : Nat) (st : Interpreter)
    (ins : Command) (cs : List Node) (rest : List Node) :
    run_children fuel st (Node.mk NodeType.Operator ins cs :: rest) =
      run_children fuel
        (execute_instruction st ins (tape_index st.pointer)) rest := by
  rw [run_children]

/-- A Program child is skipped. -/
theorem run_children_cons_program (fuel : Nat) (st : Interpreter)
    (ins : Command) (cs : List Node) (rest : List Node) :
    run_children fuel st (Node.mk NodeType.Program ins cs :: rest) =
      run_children fuel st rest := by
  rw [run_children]

/-- A Loop child whose cell reads 0 is skipped: the exit check runs
strictly before the first iteration. -/
theorem run_children_cons_loop_zero (fuel : Nat) (st : Interpreter)
    (ins : Command) (cs : List Node) (rest : List Node)
    (h : st.memory.getD (tape_index st.pointer) 0 = 0) :
    run_children fuel st (Node.mk NodeType.Loop ins cs :: rest) =
      run_children fuel st rest := by
  cases fuel with
  | zero =>
      rw [run_children]
      exact if_neg (fun hc => hc h)
  | succ f =>
      rw [run_children]
      exact if_neg (fun hc => hc h)

/-- A Loop child whose cell is non-zero fails when the fuel is spent. -/
theorem run_children_cons_loop_fuel0 (st : Interpreter) (ins : Command)
    (cs : List Node) (rest : List Node)
    (h : st.memory.getD (tape_index st.pointer) 0 ≠ 0) :
    run_children 0 st (Node.mk NodeType.Loop ins cs :: rest) = none := by
  rw [run_children]
  exact if_pos h

/-- A Loop child whose cell is non-zero runs its body once and
re-examines the same loop, consuming one unit of fuel. -/
theorem run_children_cons_loop_succ (fuel : Nat) (st : Interpreter)
    (ins : Command) (cs : List Node) (rest : List Node)
    (h : st.memory.getD (tape_index st.pointer) 0 ≠ 0) :
    run_children (fuel + 1) st (Node.mk NodeType.Loop ins cs :: rest) =
      match run_program fuel st (Node.mk NodeType.Loop ins cs) with
      | none => none
      | some st1 =>
          run_children fuel st1 (Node.mk NodeType.Loop ins cs :: rest) := by
  rw [run_children]
  exact if_pos h

/-- Running a node runs its children. -/
theorem run_program_eq (fuel : Nat) (st : Interpreter) (n : Node) :
    run_program fuel st n = run_children fuel st n.childrens := by
  simp [run_program]

/-! ## Executor properties -/

/-- No instruction changes the tape length. -/
theorem execute_instruction_memory_length (st : Interpreter)
    (cmd : Command) (index : Nat) :
    (execute_instruction st cmd index).memory.length = st.memory.length := by
  cases cmd <;> simp [execute_instruction]

/-- Any successful run preserves the tape length. -/
theorem run_children_memory_length :
    ∀ (fuel : Nat) (ns : List Node) (st st' : Interpreter),
      run_children fuel st ns = some st' →
      st'.memory.length = st.memory.length := by
  intro fuel
  induction fuel using Nat.strong_induction_on with
  | h fuel ihf =>
      intro ns
      induction ns with
      | nil =>
          intro st st' h
          rw [run_children_nil] at h
          cases h
          rfl
      | cons n rest ihr =>
          intro st st' h
          rcases n with ⟨nt, ins, cs⟩
          cases nt with
          | Program =>
              rw [run_children_cons_program] at h
              exact ihr st st' h
          | Operator =>
              rw [run_children_cons_operator] at h
              rw [ihr _ st' h, execute_instruction_memory_length]
          | Loop =>
              by_cases hc : st.memory.getD (tape_index st.pointer) 0 = 0
              · rw [run_children_cons_loop_zero _ _ _ _ _ hc] at h
                exact ihr st st' h
              · cases fuel with
                | zero =>
                    rw [run_children_cons_loop_fuel0 _ _ _ _ hc] at h
                    cases h
                | succ f =>
                    rw [run_children_cons_loop_succ _ _ _ _ _ hc] at h
                    cases hrp : run_program f st (Node.mk NodeType.Loop ins cs) with
                    | none => simp [hrp] at h
                    | some st1 =>
                        simp only [hrp] at h
                        have h1 : st1.memory.length = st.memory.length := by
                          rw [run_program_eq] at hrp
                          exact ihf f (Nat.lt_succ_self f) _ st st1 hrp
                        have h2 := ihf f (Nat.lt_succ_self f) _ st1 st' h
                        rw [h2, h1]

/-- C9: the tape starts with exactly 30000 cells, every successful run
preserves that length, and every effective index used for a tape access
is strictly below 30000, so tape indexing is never out of bounds. -/
theorem c9_memory_safety :
    (∀ input : List Nat, (interpreter_init input).memory.length = 30000) ∧
    (∀ (fuel : Nat) (st : Interpreter) (ast : Node) (st' : Interpreter),
      st.memory.length = 30000 → run_program fuel st ast = some st' →
      st'.memory.length = 30000) ∧
    (∀ p : Int, tape_index p < 30000) := by
  refine ⟨?_, ?_, ?_⟩
  · intro input
    show (List.replicate (Int.toNat MEMORY_SIZE) 0).length = 30000
    rw [List.length_replicate]
    rfl
  · intro fuel st ast st' hlen h
    rw [run_program_eq] at h
    rw [run_children_memory_length fuel ast.childrens st st' h, hlen]
  · exact tape_index_lt

/-- Witness for C9 on the empty program run from the initial state. -/
theorem c9_memory_safety_witness :
    (interpreter_init []).memory.length = 30000 :=
  c9_memory_safety.2.1 0 (interpreter_init [])
    (Node.mk NodeType.Program Command.Default []) (interpreter_init [])
    (by
      show (List.replicate (Int.toNat MEMORY_SIZE) 0).length = 30000
      rw [List.length_replicate]
      rfl)
    (by rw [run_program_eq]; exact run_children_nil 0 _)

/-- C8: pointer excursions are never errors: a run consisting of
arbitrarily many pointer-move operators always succeeds and never
touches the tape, and the wrap-around index computation yields a valid
index (in [0, 30000)) for every pointer value. -/
theorem c8_pointer_moves_safe :
    (∀ (moves : List Node),
      (∀ n, n ∈ moves → n.node_type = NodeType.Operator ∧
        (n.instruction = Command.IncDP ∨ n.instruction = Command.DecDP)) →
      ∀ (fuel : Nat) (st : Interpreter),
      ∃ st', run_children fuel st moves = some st' ∧
        st'.memory = st.memory) ∧
    (∀ p : Int, 0 ≤ (tape_index p : Int) ∧ tape_index p < 30000) := by
  constructor
  · intro moves
    induction moves with
    | nil =>
        intro _ fuel st
        exact ⟨st, run_children_nil fuel st, rfl⟩
    | cons n rest ih =>
        intro hm fuel st
        obtain ⟨hnt, hins⟩ := hm n (List.mem_cons_self n rest)
        rcases n with ⟨nt, ins, cs⟩
        simp only [Node.node_type] at hnt
        subst hnt
        simp only [Node.instruction] at hins
        rw [run_children_cons_operator]
        obtain ⟨st', hrun, hmem⟩ :=
          ih (fun n hn => hm n (List.mem_cons_of_mem _ hn)) fuel
            (execute_instruction st ins (tape_index st.pointer))
        refine ⟨st', hrun, ?_⟩
        rw [hmem]
        rcases hins with rfl | rfl <;> simp [execute_instruction]
  · intro p
    exact ⟨by exact_mod_cast Nat.zero_le _, tape_index_lt p⟩

/-- Witness for C8 on one pointer move from a concrete state. -/
theorem c8_pointer_moves_safe_witness :
    ∃ st', run_children 0 ⟨[5], 3, [], []⟩
        [Node.mk NodeType.Operator Command.IncDP []] = some st' ∧
      st'.memory = (⟨[5], 3, [], []⟩ : Interpreter).memory :=
  c8_pointer_moves_safe.1 [Node.mk NodeType.Operator Command.IncDP []]
    (fun n hn => by
      rw [List.mem_singleton] at hn
      subst hn
      exact ⟨rfl, Or.inl rfl⟩)
    0 ⟨[5], 3, [], []⟩

/-- The body of the loop "[-]" always runs in one piece: it decrements
the current cell once. -/
theorem run_program_dec_body (f : Nat) (st : Interpreter) :
    run_program f st (Node.mk NodeType.Loop Command.JumpForward
        [Node.mk NodeType.Operator Command.DecByte []]) =
      some (execute_instruction st Command.DecByte
        (tape_index st.pointer)) := by
  rw [run_program_eq]
  simp only [Node.childrens]
  rw [run_children_cons_operator, run_children_nil]

/-- C5: the loop exit check runs strictly before each iteration: on a
cell holding 0 a Loop node is a no-op even with no fuel; and the loop
"[-]" on a cell holding N runs its body exactly N times (it succeeds
with fuel N but fails with any fuel below N, one unit of fuel per
iteration), zeroes that cell, and changes nothing else. -/
theorem c5_loop_while_semantics :
    (∀ (fuel : Nat) (st : Interpreter) (ins : Command) (cs : List Node),
      st.memory.getD (tape_index st.pointer) 0 = 0 →
      run_children fuel st [Node.mk NodeType.Loop ins cs] = some st) ∧
    (∀ (N : Nat) (st : Interpreter),
      N < 256 →
      tape_index st.pointer < st.memory.length →
      st.memory.getD (tape_index st.pointer) 0 = N →
      (∃ st', run_children N st
          [Node.mk NodeType.Loop Command.JumpForward
            [Node.mk NodeType.Operator Command.DecByte []]] = some st' ∧
        st'.memory.getD (tape_index st.pointer) 0 = 0 ∧
        (∀ j, j ≠ tape_index st.pointer →
          st'.memory.getD j 0 = st.memory.getD j 0) ∧
        st'.pointer = st.pointer) ∧
      (∀ fuel, fuel < N →
        run_children fuel st
          [Node.mk NodeType.Loop Command.JumpForward
            [Node.mk NodeType.Operator Command.DecByte []]] = none)) := by
  constructor
  · intro fuel st ins cs h
    rw [run_children_cons_loop_zero _ _ _ _ _ h, run_children_nil]
  · intro N
    induction N with
    | zero =>
        intro st h256 hidx hcell
        constructor
        · refine ⟨st, ?_, hcell, fun j _ => rfl, rfl⟩
          rw [run_children_cons_loop_zero _ _ _ _ _ hcell, run_children_nil]
        · intro fuel hf
          exact absurd hf (Nat.not_lt_zero fuel)
    | succ N ih =>
        intro st h256 hidx hcell
        have hne : st.memory.getD (tape_index st.pointer) 0 ≠ 0 := by
          rw [hcell]
          exact Nat.succ_ne_zero N
        have hval : (N + 1 + 255) % 256 = N := by omega
        have hmem1 : (execute_instruction st Command.DecByte
            (tape_index st.pointer)).memory =
            st.memory.set (tape_index st.pointer) N := by
          simp only [execute_instruction]
          rw [hcell, hval]
        have hptr1 : (execute_instruction st Command.DecByte
            (tape_index st.pointer)).pointer = st.pointer := rfl
        have hcell1 : (execute_instruction st Command.DecByte
            (tape_index st.pointer)).memory.getD
            (tape_index (execute_instruction st Command.DecByte
              (tape_index st.pointer)).pointer) 0 = N := by
          rw [hptr1, hmem1]
          simp [List.getD_eq_getElem?_getD, List.getElem?_set_self, hidx]
        have hidx1 : tape_index (execute_instruction st Command.DecByte
            (tape_index st.pointer)).pointer <
            (execute_instruction st Command.DecByte
              (tape_index st.pointer)).memory.length := by
          rw [hptr1, execute_instruction_memory_length]
          exact hidx
        obtain ⟨⟨st', hrun', hcell', hframe', hptr'⟩, hnone'⟩ :=
          ih (execute_instruction st Command.DecByte (tape_index st.pointer))
            (by omega) hidx1 hcell1
        constructor
        · refine ⟨st', ?_, ?_, ?_, ?_⟩
          · rw [run_children_cons_loop_succ _ _ _ _ _ hne,
              run_program_dec_body]
            exact hrun'
          · rw [hptr1] at hcell'
            exact hcell'
          · intro j hj
            rw [hptr1] at hframe'
            rw [hframe' j hj, hmem1]
            simp [List.getD_eq_getElem?_getD,
              List.getElem?_set_ne (Ne.symm hj)]
          · rw [hptr', hptr1]
        · intro fuel hf
          cases fuel with
          | zero =>
              exact run_children_cons_loop_fuel0 _ _ _ _ hne
          | succ f =>
              rw [run_children_cons_loop_succ _ _ _ _ _ hne,
                run_program_dec_body]
              exact hnone' f (by omega)

/-- Witness for C5: "[-]" on a one-cell tape holding 3 with fuel 3
succeeds and zeroes the cell; with fuel 2 it fails. -/
theorem c5_loop_while_semantics_witness :
    (∃ st', run_children 3 ⟨[3], 0, [], []⟩
        [Node.mk NodeType.Loop Command.JumpForward
          [Node.mk NodeType.Operator Command.DecByte []]] = some st' ∧
      st'.memory.getD (tape_index (0 : Int)) 0 = 0 ∧
      (∀ j, j ≠ tape_index (0 : Int) →
        st'.memory.getD j 0 =
          (⟨[3], 0, [], []⟩ : Interpreter).memory.getD j 0) ∧
      st'.pointer = (⟨[3], 0, [], []⟩ : Interpreter).pointer) ∧
    (∀ fuel, fuel < 3 →
      run_children fuel ⟨[3], 0, [], []⟩
        [Node.mk NodeType.Loop Command.JumpForward
          [Node.mk NodeType.Operator Command.DecByte []]] = none) :=
  c5_loop_while_semantics.2 3 ⟨[3], 0, [], []⟩ (by decide)
    (by show tape_index 0 < 1; decide) (by show _ = 3; decide)

end BF
